import Mathlib

/-!
Verification of the utboost_starter repository against its natural-language
specification.  Python strings are modelled as `List Char`; Python functions
that can raise are modelled in `Except PyErr`.  The character classes `\s`
and `\w` of Python's `re` module are modelled over their ASCII ranges, which
covers every string handled by this repository.
-/

/-- Python exception kinds raised by the modelled code. -/
inductive PyErr where
  | nameError
  | valueError
  | typeError
deriving DecidableEq, Repr

/-- ASCII range of Python's whitespace class `\s` (also used by `str.strip`). -/
def pyIsSpace (c : Char) : Bool :=
  c = ' ' || c = '\t' || c = '\n' || c = '\r' || c = '\x0b' || c = '\x0c'

/-- ASCII range of Python's word class `\w`. -/
def pyIsWord (c : Char) : Bool :=
  c.isAlphanum || c = '_'

/-- The line-break characters recognised by Python's `str.splitlines`
(ASCII ones plus the BMP separators). -/
def isLineBreak (c : Char) : Bool :=
  c = '\n' || c = '\r' || c = '\x0b' || c = '\x0c' || c = '\x1c' ||
  c = '\x1d' || c = '\x1e' || c = '\x85' || c = '\u2028' || c = '\u2029'

/-- `str.split(sep)` for a one-character separator: splits on every
occurrence, keeping empty pieces; the empty string yields `[[]]`. -/
def splitSep (sep : Char) : List Char → List (List Char)
  | [] => [[]]
  | c :: rest =>
    if c = sep then [] :: splitSep sep rest
    else
      match splitSep sep rest with
      | [] => [[c]]
      | l :: ls => (c :: l) :: ls

/-- `s.split('\n')`. -/
def splitNl (cs : List Char) : List (List Char) := splitSep '\n' cs

/-- `'\n'.join(ls)`. -/
def joinNl : List (List Char) → List Char
  | [] => []
  | [l] => l
  | l :: ls => l ++ '\n' :: joinNl ls

/-- Accumulator-style core of `str.splitlines`: a terminator ends the
current line ('\r\n' counts as one terminator); a trailing unterminated
line is kept only when non-empty. -/
def pySplitlinesAux : List Char → List Char → List (List Char)
  | acc, [] => if acc.isEmpty then [] else [acc.reverse]
  | acc, '\r' :: '\n' :: rest => acc.reverse :: pySplitlinesAux [] rest
  | acc, c :: rest =>
    if isLineBreak c then acc.reverse :: pySplitlinesAux [] rest
    else pySplitlinesAux (c :: acc) rest

/-- Python's `str.splitlines()`. -/
def pySplitlines (s : List Char) : List (List Char) := pySplitlinesAux [] s

/-- Drop trailing characters satisfying `pyIsSpace`. -/
def dropTrailingSpace (l : List Char) : List Char :=
  (l.reverse.dropWhile pyIsSpace).reverse

/-- Python's `str.strip()` (both ends, default whitespace set). -/
def pyStrip (l : List Char) : List Char :=
  dropTrailingSpace (l.dropWhile pyIsSpace)

/-- Decimal digit character. -/
def digitChar : Nat → Char
  | 0 => '0' | 1 => '1' | 2 => '2' | 3 => '3' | 4 => '4'
  | 5 => '5' | 6 => '6' | 7 => '7' | 8 => '8' | 9 => '9'
  | _ => '*'

/-- Fuel-driven decimal rendering accumulating least-significant digits. -/
def natReprGo : Nat → Nat → List Char → List Char
  | 0, _, acc => acc
  | fuel + 1, n, acc =>
    if n < 10 then digitChar n :: acc
    else natReprGo fuel (n / 10) (digitChar (n % 10) :: acc)

/-- Decimal rendering of a natural number, as Python's `str(n)` for `n ≥ 0`. -/
def natRepr (n : Nat) : List Char := natReprGo (n + 1) n []

/-- `str.rfind('.')`: index of the last occurrence of `'.'`, if any. -/
def rfindPeriod : List Char → Option Nat
  | [] => none
  | c :: rest =>
    match rfindPeriod rest with
    | some i => some (i + 1)
    | none => if c = '.' then some 0 else none

/-!  ## eval_harness.py  -/

/-- One evaluation result mapping as consumed by `select_best_solution`
(`res['patch']`, `res['original']['passed']`, `res['original']['total']`). -/
structure EvalResult where
  patch : List Char
  passed : Nat
  total : Nat
deriving DecidableEq, Repr

/-- `len(res['patch'].splitlines())`. -/
def patchLineCount (res : EvalResult) : Nat := (pySplitlines res.patch).length

/-- Python comparison `(-size₁, res₁) < (-size₂, res₂)` on the candidate
tuples: tuples compare componentwise; when the integer keys are equal the
dictionaries are compared, which succeeds (with `False`) only when they are
equal and otherwise raises `TypeError`. -/
def candLt (a b : Int × EvalResult) : Except PyErr Bool :=
  if a.1 = b.1 then
    (if a.2 = b.2 then .ok false else .error .typeError)
  else .ok (decide (a.1 < b.1))

/-- Insert a candidate into an ascending-sorted list, placing it after any
tuple it does not compare strictly below (the stable behaviour of Python's
`sorted`); a failing comparison aborts the whole sort. -/
def insertCand (x : Int × EvalResult) :
    List (Int × EvalResult) → Except PyErr (List (Int × EvalResult))
  | [] => .ok [x]
  | y :: ys =>
    match candLt x y with
    | .error e => .error e
    | .ok true => .ok (x :: y :: ys)
    | .ok false =>
      match insertCand x ys with
      | .error e => .error e
      | .ok t => .ok (y :: t)

/-- Left fold of the stable insertion sort over the candidate list. -/
def sortCandsGo : List (Int × EvalResult) → List (Int × EvalResult) →
    Except PyErr (List (Int × EvalResult))
  | acc, [] => .ok acc
  | acc, x :: xs =>
    match insertCand x acc with
    | .error e => .error e
    | .ok acc' => sortCandsGo acc' xs

/-- `sorted(candidates)` modelled as a stable insertion sort whose element
comparison is the fallible Python tuple comparison. -/
def sortCands (l : List (Int × EvalResult)) :
    Except PyErr (List (Int × EvalResult)) :=
  sortCandsGo [] l

/-- `select_best_solution` (eval_harness.py lines 66-77): builds
`(-patch_size, res)` candidate tuples and returns `sorted(candidates)[0][1]`
when the list is non-empty, `None` otherwise. -/
def select_best_solution (results : List EvalResult) :
    Except PyErr (Option EvalResult) :=
  let candidates := results.map (fun res => ((-(patchLineCount res : Int)), res))
  match candidates with
  | [] => .ok none
  | _ :: _ =>
    match sortCands candidates with
    | .error e => .error e
    | .ok s => .ok (s.head?.map (fun p => p.2))

/-- A 40-line patch result (39 newlines separating 40 one-character lines). -/
def resultA40 : EvalResult := ⟨joinNl (List.replicate 40 ['a']), 1, 1⟩

/-- A 12-line patch result. -/
def resultB12 : EvalResult := ⟨joinNl (List.replicate 12 ['b']), 1, 1⟩

/-- A 25-line patch result. -/
def resultC25 : EvalResult := ⟨joinNl (List.replicate 25 ['c']), 1, 1⟩

/-- A one-line patch result used twice in the duplicate-candidate input. -/
def resultDup : EvalResult := ⟨['x'], 1, 1⟩

/-!  ## codebase_analyzer.py : derive_repo_info  -/

/-- The object `derive_repo_info` receives: only its `model_patch` entry is
consulted (`none` models an absent key; the empty list a present empty
string, both falsy). -/
structure ModelInfo where
  model_patch : Option (List Char)

/-- The mapping returned by `derive_repo_info`. -/
structure RepoInfo where
  repo_owner : List Char
  repo_name : List Char
  file_path : List Char
deriving DecidableEq, Repr

/-- The literal part of the pattern `diff --git a/([^\s]+)`. -/
def gitNeedle : List Char := ("diff --git a/").toList

/-- `re.search(r'diff --git a/([^\s]+)', patch)`: scan left to right for the
first position where the literal is followed by at least one non-whitespace
character; the captured group is the maximal non-whitespace run. -/
def searchDiffGit : List Char → Option (List Char)
  | [] => none
  | c :: rest =>
    let path := ((c :: rest).drop gitNeedle.length).takeWhile (fun ch => !pyIsSpace ch)
    if gitNeedle.isPrefixOf (c :: rest) && !path.isEmpty then some path
    else searchDiffGit rest

/-- `derive_repo_info` (codebase_analyzer.py lines 13-57): requires a truthy
`model_patch`, extracts the first regex match, and takes the first
`'/'`-separated segment of the captured path as both owner and name. -/
def derive_repo_info (mi : ModelInfo) : Except PyErr RepoInfo :=
  match mi.model_patch with
  | none => .error .valueError
  | some patch =>
    if patch.isEmpty then .error .valueError
    else
      match searchDiffGit patch with
      | none => .error .valueError
      | some file_path =>
        let path_parts := splitSep '/' file_path
        let repo_name := path_parts.headD []
        .ok ⟨repo_name, repo_name, file_path⟩

/-- Captured group of the regex pattern anchored at position `i`. -/
def pathAt (patch : List Char) (i : Nat) : List Char :=
  ((patch.drop i).drop gitNeedle.length).takeWhile (fun ch => !pyIsSpace ch)

/-- Whether the pattern `diff --git a/([^\s]+)` matches at position `i`. -/
def matchAtB (patch : List Char) (i : Nat) : Bool :=
  gitNeedle.isPrefixOf (patch.drop i) && !(pathAt patch i).isEmpty

/-- The claim's reading of the matching condition, modelled from the spec:
some line of the patch starts with `diff --git a/` followed by a
non-whitespace character. -/
def hasDiffGitLine (patch : List Char) : Bool :=
  (splitNl patch).any (fun l => matchAtB l 0)

/-!  ## codebase_analyzer.py : outline extraction  -/

/-- `re.match(r'^@\w+', line)` viewed as a Boolean: first character `'@'`,
second a word character. -/
def decoratorMatch : List Char → Bool
  | a :: c :: _ => a = '@' && pyIsWord c
  | _ => false

/-- `re.match(r'^(<kw>\s+\w+.*?:)', line)`: the keyword literal, one or more
whitespace characters, one or more word characters, then a minimal (possibly
empty) run of non-newline characters up to the first colon; returns the
captured group.  Greedy/lazy backtracking cannot produce any other match for
this pattern, so the maximal-run reading is exact. -/
def headerMatch (kw : List Char) (line : List Char) : Option (List Char) :=
  if kw.isPrefixOf line then
    let r1 := line.drop kw.length
    let ws := r1.takeWhile pyIsSpace
    if ws.isEmpty then none
    else
      let r2 := r1.drop ws.length
      let w := r2.takeWhile pyIsWord
      if w.isEmpty then none
      else
        let r3 := r2.drop w.length
        let mid := r3.takeWhile (fun c => !(c = ':' || c = '\n'))
        if (r3.drop mid.length).head? = some ':' then
          some (kw ++ ws ++ w ++ mid ++ [':'])
        else none
  else none

/-- The keyword of the class-header pattern. -/
def classKw : List Char := ("class").toList

/-- The keyword of the function-header pattern. -/
def defKw : List Char := ("def").toList

/-- `re.match(r'^(class\s+\w+.*?:)', line)`. -/
def classMatch (line : List Char) : Option (List Char) := headerMatch classKw line

/-- `re.match(r'^(def\s+\w+.*?:)', line)`. -/
def funcMatch (line : List Char) : Option (List Char) := headerMatch defKw line

/-- One iteration of the compression loop of `function_class_localization`
(codebase_analyzer.py lines 111-128): state is `(in_class, in_function)`,
and the returned list holds the lines appended to `compressed`. -/
def compressStep (st : Bool × Bool) (line : List Char) :
    (Bool × Bool) × List (List Char) :=
  if decoratorMatch line then (st, [pyStrip line])
  else
    match classMatch line with
    | some g => ((true, st.2), [g])
    | none =>
      match funcMatch line with
      | some g => ((st.1, true), [g])
      | none =>
        if st.1 && (pyStrip line).isEmpty then ((false, st.2), [])
        else if st.2 && (pyStrip line).isEmpty then ((st.1, false), [])
        else (st, [])

/-- The compression loop threaded over the split lines. -/
def compressGo : Bool × Bool → List (List Char) → List (List Char)
  | _, [] => []
  | st, line :: rest =>
    (compressStep st line).2 ++ compressGo (compressStep st line).1 rest

/-- The `compressed` list built for one file, starting from
`in_class = in_function = False`. -/
def compressLines (lines : List (List Char)) : List (List Char) :=
  compressGo (false, false) lines

/-- The compressed text stored in `compressed_files[file_path]`:
`'\n'.join(compressed)` over `file_content.split('\n')`. -/
def compress (s : List Char) : List Char := joinNl (compressLines (splitNl s))

/-- Flag-free filter modelled from the spec: keep the stripped decorator
lines and the class/function header captures, drop everything else. -/
def outlineEmit (line : List Char) : Option (List Char) :=
  if decoratorMatch line then some (pyStrip line)
  else
    match classMatch line with
    | some g => some g
    | none => funcMatch line

/-- The flag-free extraction over a list of lines. -/
def compressFilter (lines : List (List Char)) : List (List Char) :=
  lines.filterMap outlineEmit

/-!  ## codebase_analyzer.py : get_code_with_lines  -/

/-- `get_code_with_lines` (codebase_analyzer.py lines 215-226) after a
successful fetch: `"".join([f"{i+1}: {line}" for i, line in
enumerate(file_content.split('\n'))])`. -/
def get_code_with_lines (s : List Char) : List Char :=
  ((splitNl s).enum.map (fun p => natRepr (p.1 + 1) ++ ':' :: ' ' :: p.2)).flatten

/-!  ## codebase_analyzer.py : build_tree  -/

/-- A repository content entry as listed by the content-hosting API:
a file or a directory with its own listing. -/
inductive Entry where
  | file : List Char → Entry
  | dir : List Char → List Entry → Entry

/-- `content.name`. -/
def entryName : Entry → List Char
  | .file n => n
  | .dir n _ => n

/-- Strict lexicographic order on names (Python string `<`). -/
def nameLt : List Char → List Char → Bool
  | [], [] => false
  | [], _ :: _ => true
  | _ :: _, [] => false
  | a :: as, b :: bs => if a < b then true else if b < a then false else nameLt as bs

/-- Stable insertion for `sorted(contents, key=lambda x: x.name)`. -/
def insertByName (x : Entry) : List Entry → List Entry
  | [] => [x]
  | y :: ys =>
    if nameLt (entryName x) (entryName y) then x :: y :: ys
    else y :: insertByName x ys

/-- `sorted(contents, key=lambda x: x.name)` as a stable insertion sort. -/
def sortByName (l : List Entry) : List Entry :=
  l.foldl (fun acc x => insertByName x acc) []

/-- Evaluation of a Python name: an unbound name raises `NameError`. -/
def lookupName (binding : Option (List Char)) : Except PyErr (List Char) :=
  match binding with
  | none => .error .nameError
  | some v => .ok v

/-- `"│   " * indent`. -/
def indentGlyphs (n : Nat) : List Char := (List.replicate n (("│   ").toList)).flatten

/-- One rendered tree line, `"├── <name>"` with a trailing slash for
directories. -/
def entryLine (indent : Nat) (name : List Char) (isDir : Bool) : List Char :=
  indentGlyphs indent ++ ("├── ").toList ++ name ++
    (if isDir then ['/', '\n'] else ['\n'])

mutual
/-- `build_tree` (codebase_analyzer.py lines 308-322).  The `try` block
first evaluates `base_commit_sha` (modelled by `lookupName ref?`, where the
argument is the binding of that name in the enclosing scope) and then lists
the path; any exception is caught and the accumulated `tree_str` — still
empty at that point — is returned.  `entries` is the listing the content
host would return for the current path. -/
def build_tree (ref? : Option (List Char)) (entries : List Entry) (indent : Nat) :
    List Char :=
  match lookupName ref? with
  | .error _ => []
  | .ok _ => renderSorted ref? (sortByName entries) indent
termination_by sizeOf entries + 1
decreasing_by
  have hins : ∀ (x : Entry) (l : List Entry),
      sizeOf (insertByName x l) = 1 + sizeOf x + sizeOf l := by
    intro x l
    induction l with
    | nil => simp [insertByName]
    | cons y ys ih =>
      simp only [insertByName]
      split
      · simp <;> omega
      · simp [ih] <;> omega
  have hsort : ∀ (l acc : List Entry),
      sizeOf (List.foldl (fun a x => insertByName x a) acc l) + 1 =
        sizeOf acc + sizeOf l := by
    intro l
    induction l with
    | nil => intro acc; simp
    | cons x xs ih =>
      intro acc
      simp only [List.foldl]
      rw [ih, hins]
      simp <;> omega
  have h := hsort entries []
  simp only [sortByName]
  simp at h
  omega

/-- The `for content in sorted(contents, key=...)` loop of `build_tree`:
renders each entry and recurses into directories with one more indent
level. -/
def renderSorted (ref? : Option (List Char)) : List Entry → Nat → List Char
  | [], _ => []
  | .file name :: rest, indent =>
    entryLine indent name false ++ renderSorted ref? rest indent
  | .dir name children :: rest, indent =>
    entryLine indent name true ++ build_tree ref? children (indent + 1) ++
      renderSorted ref? rest indent
termination_by l _ => sizeOf l
decreasing_by
  · simp <;> omega
  · simp <;> omega
  · simp <;> omega
end

/-- The `codebase_tree = build_tree(repo)` call of `file_level_localization`
(codebase_analyzer.py line 324): the function's parameter list has no
`base_commit_sha`, so the name referenced inside `build_tree` is unbound and
its binding is `none`. -/
def file_level_codebase_tree (entries : List Entry) : List Char :=
  build_tree none entries 0

/-!  ## context_script.py : prompt truncation  -/

/-- The truncation step of `ContextGenerator.get_llm_response`
(context_script.py lines 72-92): estimate tokens as `len(prompt) // 4`;
when the estimate exceeds 120000, cut to `120000 * 4` characters and then
trim back to the last `'.'` if one exists. -/
def truncate_prompt (prompt : List Char) : List Char :=
  let estimated_tokens := prompt.length / 4
  let max_tokens := 120000
  if estimated_tokens > max_tokens then
    let truncated := prompt.take (max_tokens * 4)
    match rfindPeriod truncated with
    | some last_period => truncated.take (last_period + 1)
    | none => truncated
  else prompt

/-!  ## process_results.py  -/

/-- One parsed result file: `data.get("total_instances", 0)` and
`data.get("completed_ids", [])`, with `none` modelling an absent key. -/
structure ResultFileJson where
  total_instances : Option Nat
  completed_ids : Option (List (List Char))

/-- `calculate_success_rate` (process_results.py lines 4-24) over the parsed
result files: accumulate the two totals in a loop, then return
`total_completed / total_instances * 100` (exact rational division modelling
Python's float division) when the total is positive, else `0`. -/
def calculate_success_rate (files : List ResultFileJson) : ℚ :=
  let totals := files.foldl
    (fun acc data =>
      (acc.1 + data.total_instances.getD 0, acc.2 + (data.completed_ids.getD []).length))
    ((0, 0) : Nat × Nat)
  if 0 < totals.1 then ((totals.2 : ℚ) / (totals.1 : ℚ)) * 100 else 0

/-- Claim-side sum of `total_instances` over all files. -/
def sumTotalInstances (files : List ResultFileJson) : Nat :=
  (files.map (fun f => f.total_instances.getD 0)).sum

/-- Claim-side sum of `len(completed_ids)` over all files. -/
def sumCompleted (files : List ResultFileJson) : Nat :=
  (files.map (fun f => (f.completed_ids.getD []).length)).sum

/-!  ## Theorems  -/

/-- C1: code_bug evidence.  On three results whose patches have 40, 12 and
25 lines, `select_best_solution` returns the 40-line result: negating the
patch size and taking `sorted(...)[0]` selects the candidate with the *most*
patch lines, contradicting the function's own docstring ("have the smallest
patch") and its comment ("Negative for smallest first"). -/
theorem c1_select_returns_largest_patch :
    select_best_solution [resultA40, resultB12, resultC25] = .ok (some resultA40) ∧
    patchLineCount resultA40 = 40 ∧ patchLineCount resultB12 = 12 ∧
    patchLineCount resultC25 = 25 := by
  refine ⟨?_, ?_, ?_, ?_⟩ <;> rfl

/-- Characters in Python's whitespace set are never word characters. -/
theorem space_not_word (c : Char) : pyIsSpace c = true → pyIsWord c = false := by
  intro h
  simp only [pyIsSpace, Bool.or_eq_true, decide_eq_true_eq] at h
  rcases h with ((((h | h) | h) | h) | h) | h <;> subst h <;> decide

/-- Word characters are never whitespace. -/
theorem word_not_space (c : Char) : pyIsWord c = true → pyIsSpace c = false := by
  intro h
  cases hs : pyIsSpace c with
  | false => rfl
  | true => rw [space_not_word c hs] at h; cases h

/-- `takeWhile` walks through a block that satisfies the predicate. -/
theorem takeWhile_append_all {p : Char → Bool} :
    ∀ (a b : List Char), (∀ c ∈ a, p c = true) →
      (a ++ b).takeWhile p = a ++ b.takeWhile p := by
  intro a b ha
  induction a with
  | nil => simp
  | cons c cs ih =>
    have hc : p c = true := ha c (List.mem_cons_self c cs)
    have ih' := ih (fun d hd => ha d (List.mem_cons_of_mem c hd))
    simp [List.takeWhile_cons, hc, ih']

/-- `takeWhile` stops immediately on a failing head. -/
theorem takeWhile_head_false {p : Char → Bool} :
    ∀ b : List Char, (∀ c, b.head? = some c → p c = false) →
      b.takeWhile p = [] := by
  intro b hb
  cases b with
  | nil => rfl
  | cons c cs => simp [List.takeWhile_cons, hb c rfl]

/-- Members of a `takeWhile` satisfy the predicate and belong to the list. -/
theorem mem_takeWhile {p : Char → Bool} :
    ∀ (l : List Char) c, c ∈ l.takeWhile p → p c = true ∧ c ∈ l := by
  intro l
  induction l with
  | nil => intro c h; cases h
  | cons d ds ih =>
    intro c h
    by_cases hd : p d
    · rw [List.takeWhile_cons, if_pos hd] at h
      rcases List.mem_cons.mp h with rfl | h'
      · exact ⟨hd, List.mem_cons_self _ _⟩
      · rcases ih c h' with ⟨h1, h2⟩
        exact ⟨h1, List.mem_cons_of_mem _ h2⟩
    · rw [List.takeWhile_cons, if_neg hd] at h
      cases h

/-- The head surviving a `dropWhile` fails the predicate. -/
theorem head_dropWhile_false {p : Char → Bool} :
    ∀ (l : List Char) c, (l.dropWhile p).head? = some c → p c = false := by
  intro l
  induction l with
  | nil => intro c h; cases h
  | cons d ds ih =>
    intro c h
    by_cases hd : p d
    · rw [List.dropWhile_cons, if_pos hd] at h
      exact ih c h
    · rw [List.dropWhile_cons, if_neg hd] at h
      simp only [List.head?_cons, Option.some.injEq] at h
      subst h
      exact Bool.of_not_eq_true hd

/-- `splitSep` never returns the empty list of pieces. -/
theorem splitSep_ne_nil (sep : Char) : ∀ cs : List Char, splitSep sep cs ≠ [] := by
  intro cs
  induction cs with
  | nil => simp [splitSep]
  | cons c rest ih =>
    by_cases h : c = sep
    · simp [splitSep, h]
    · simp only [splitSep, if_neg h]
      cases hs : splitSep sep rest with
      | nil => exact absurd hs ih
      | cons l ls => simp

/-- No piece produced by `splitSep` contains the separator. -/
theorem mem_splitSep_no_sep (sep : Char) :
    ∀ (cs : List Char) l, l ∈ splitSep sep cs → sep ∉ l := by
  intro cs
  induction cs with
  | nil =>
    intro l h
    simp only [splitSep, List.mem_singleton] at h
    subst h
    simp
  | cons c rest ih =>
    intro l h
    by_cases hc : c = sep
    · simp only [splitSep, if_pos hc, List.mem_cons] at h
      rcases h with rfl | h'
      · simp
      · exact ih l h'
    · simp only [splitSep, if_neg hc] at h
      cases hs : splitSep sep rest with
      | nil => exact absurd hs (splitSep_ne_nil sep rest)
      | cons l0 ls =>
        rw [hs] at h
        rcases List.mem_cons.mp h with rfl | h'
        · intro hmem
          rcases List.mem_cons.mp hmem with rfl | h''
          · exact hc rfl
          · exact ih l0 (hs ▸ List.mem_cons_self l0 ls) h''
        · exact ih l (hs ▸ List.mem_cons_of_mem l0 h')

/-- `splitSep` of a separator-free string is that single piece. -/
theorem splitSep_no_sep (sep : Char) :
    ∀ cs : List Char, sep ∉ cs → splitSep sep cs = [cs] := by
  intro cs
  induction cs with
  | nil => intro _; rfl
  | cons c rest ih =>
    intro h
    have hc : ¬ c = sep := fun hcc => h (hcc ▸ List.mem_cons_self c rest)
    have hrest : sep ∉ rest := fun hr => h (List.mem_cons_of_mem c hr)
    simp only [splitSep, if_neg hc, ih hrest]

/-- Splitting a string of the shape `a ++ sep :: b` with `sep ∉ a` peels off
`a` as the first piece. -/
theorem splitSep_append (sep : Char) :
    ∀ (a b : List Char), sep ∉ a →
      splitSep sep (a ++ sep :: b) = a :: splitSep sep b := by
  intro a b ha
  induction a with
  | nil => simp [splitSep]
  | cons c cs ih =>
    have hc : ¬ c = sep := fun hcc => ha (hcc ▸ List.mem_cons_self c cs)
    have hcs : sep ∉ cs := fun hr => ha (List.mem_cons_of_mem c hr)
    simp only [List.cons_append, splitSep, if_neg hc, List.append_eq]
    rw [ih hcs]

/-- `split('\n')` undoes `'\n'.join` on a non-empty list of
newline-free lines. -/
theorem splitNl_joinNl :
    ∀ ls : List (List Char), ls ≠ [] → (∀ l ∈ ls, '\n' ∉ l) →
      splitNl (joinNl ls) = ls := by
  intro ls
  induction ls with
  | nil => intro h; exact absurd rfl h
  | cons l rest ih =>
    intro _ hnl
    cases rest with
    | nil =>
      show splitSep '\n' l = [l]
      exact splitSep_no_sep '\n' l (hnl l (List.mem_cons_self l []))
    | cons l' rest' =>
      show splitSep '\n' (l ++ '\n' :: joinNl (l' :: rest')) = l :: (l' :: rest')
      rw [splitSep_append '\n' l _ (hnl l (List.mem_cons_self l _))]
      congr 1
      exact ih (by simp) (fun x hx => hnl x (List.mem_cons_of_mem l hx))

/-- Every line produced by `split('\n')` is newline-free. -/
theorem splitNl_no_newline (cs : List Char) :
    ∀ l ∈ splitNl cs, '\n' ∉ l :=
  fun l hl => mem_splitSep_no_sep '\n' cs l hl

/-- The tuple comparison fails exactly on equal keys with unequal result
mappings, and the error is always `TypeError`. -/
theorem candLt_error_iff (a b : Int × EvalResult) (e : PyErr) :
    candLt a b = .error e ↔ a.1 = b.1 ∧ a.2 ≠ b.2 ∧ e = .typeError := by
  by_cases h1 : a.1 = b.1
  · by_cases h2 : a.2 = b.2 <;> simp [candLt, h1, h2, eq_comm]
  · simp [candLt, h1]

/-- The tuple comparison returns `True` exactly on a strictly smaller key. -/
theorem candLt_ok_true_iff (a b : Int × EvalResult) :
    candLt a b = .ok true ↔ a.1 < b.1 := by
  by_cases h1 : a.1 = b.1
  · by_cases h2 : a.2 = b.2 <;> simp [candLt, h1, h2, lt_irrefl]
  · simp [candLt, h1]

/-- A `False` comparison outcome means the key is not smaller. -/
theorem candLt_ok_false_le (a b : Int × EvalResult) :
    candLt a b = .ok false → b.1 ≤ a.1 := by
  intro h
  by_cases h1 : a.1 = b.1
  · exact le_of_eq h1.symm
  · by_cases h2 : a.1 < b.1
    · rw [show candLt a b = .ok true from (candLt_ok_true_iff a b).mpr h2] at h
      cases h
    · exact le_of_not_lt h2

/-- Any error escaping `insertCand` is a `TypeError`. -/
theorem insertCand_error_typeError (x : Int × EvalResult) :
    ∀ (acc : List (Int × EvalResult)) e, insertCand x acc = .error e →
      e = .typeError := by
  intro acc
  induction acc with
  | nil => intro e h; cases h
  | cons y ys ih =>
    intro e h
    simp only [insertCand] at h
    cases hc : candLt x y with
    | error e' =>
      rw [hc] at h
      simp only [Except.error.injEq] at h
      exact h ▸ ((candLt_error_iff x y e').mp hc).2.2
    | ok b =>
      rw [hc] at h
      cases b with
      | true => cases h
      | false =>
        cases hi : insertCand x ys with
        | error e' =>
          rw [hi] at h
          simp only [Except.error.injEq] at h
          exact h ▸ ih e' hi
        | ok t => rw [hi] at h; cases h

/-- On a key-sorted accumulator, `insertCand` fails exactly when the
accumulator holds a tuple with the same key but a different result. -/
theorem insertCand_err_iff (x : Int × EvalResult) :
    ∀ acc : List (Int × EvalResult),
      acc.Pairwise (fun a b => a.1 ≤ b.1) →
      (insertCand x acc = .error .typeError ↔
        ∃ y ∈ acc, x.1 = y.1 ∧ x.2 ≠ y.2) := by
  intro acc
  induction acc with
  | nil => intro _; simp [insertCand]
  | cons y ys ih =>
    intro hs
    rw [List.pairwise_cons] at hs
    obtain ⟨hy, hs'⟩ := hs
    have ihe := ih hs'
    by_cases h1 : x.1 = y.1
    · by_cases h2 : x.2 = y.2
      · have hc : candLt x y = .ok false := by simp [candLt, h1, h2]
        cases hi : insertCand x ys with
        | error e' =>
          have he' : e' = .typeError := insertCand_error_typeError x ys e' hi
          subst he'
          simp only [insertCand, hc, hi]
          constructor
          · intro _
            rcases ihe.mp hi with ⟨z, hz, hzz⟩
            exact ⟨z, List.mem_cons_of_mem y hz, hzz⟩
          · intro _
            trivial
        | ok t =>
          simp only [insertCand, hc, hi]
          constructor
          · intro h
            simp at h
          · rintro ⟨z, hz, hz1, hz2⟩
            rcases List.mem_cons.mp hz with rfl | hz'
            · exact absurd h2 hz2
            · have hcontra := ihe.mpr ⟨z, hz', hz1, hz2⟩
              rw [hi] at hcontra
              simp at hcontra
      · have hc : candLt x y = .error .typeError := by simp [candLt, h1, h2]
        simp only [insertCand, hc]
        constructor
        · intro _
          exact ⟨y, List.mem_cons_self y ys, h1, h2⟩
        · intro _
          trivial
    · by_cases hlt : x.1 < y.1
      · have hc : candLt x y = .ok true := (candLt_ok_true_iff x y).mpr hlt
        simp only [insertCand, hc]
        constructor
        · intro h
          simp at h
        · rintro ⟨z, hz, hz1, hz2⟩
          rcases List.mem_cons.mp hz with rfl | hz'
          · exact absurd hz1 h1
          · have h3 := hy z hz'
            omega
      · have hc : candLt x y = .ok false := by
          have h3 : ¬ x.1 < y.1 := hlt
          simp [candLt, h1, h3]
        cases hi : insertCand x ys with
        | error e' =>
          have he' : e' = .typeError := insertCand_error_typeError x ys e' hi
          subst he'
          simp only [insertCand, hc, hi]
          constructor
          · intro _
            rcases ihe.mp hi with ⟨z, hz, hzz⟩
            exact ⟨z, List.mem_cons_of_mem y hz, hzz⟩
          · intro _
            trivial
        | ok t =>
          simp only [insertCand, hc, hi]
          constructor
          · intro h
            simp at h
          · rintro ⟨z, hz, hz1, hz2⟩
            rcases List.mem_cons.mp hz with rfl | hz'
            · exact absurd hz1 h1
            · have hcontra := ihe.mpr ⟨z, hz', hz1, hz2⟩
              rw [hi] at hcontra
              simp at hcontra

/-- A successful insertion returns a permutation of the element consed onto
the accumulator. -/
theorem insertCand_ok_perm (x : Int × EvalResult) :
    ∀ acc out, insertCand x acc = .ok out → out.Perm (x :: acc) := by
  intro acc
  induction acc with
  | nil =>
    intro out h
    simp only [insertCand, Except.ok.injEq] at h
    subst h
    exact List.Perm.refl _
  | cons y ys ih =>
    intro out h
    simp only [insertCand] at h
    cases hc : candLt x y with
    | error e => rw [hc] at h; cases h
    | ok b =>
      rw [hc] at h
      cases b with
      | true =>
        simp only [Except.ok.injEq] at h
        subst h
        exact List.Perm.refl _
      | false =>
        cases hi : insertCand x ys with
        | error e => rw [hi] at h; cases h
        | ok t =>
          rw [hi] at h
          simp only [Except.ok.injEq] at h
          subst h
          exact (List.Perm.cons y (ih t hi)).trans (List.Perm.swap x y ys)

/-- A successful insertion into a key-sorted accumulator stays key-sorted. -/
theorem insertCand_ok_sorted (x : Int × EvalResult) :
    ∀ acc out, acc.Pairwise (fun a b => a.1 ≤ b.1) →
      insertCand x acc = .ok out →
      out.Pairwise (fun a b => a.1 ≤ b.1) := by
  intro acc
  induction acc with
  | nil =>
    intro out _ h
    simp only [insertCand, Except.ok.injEq] at h
    subst h
    simp
  | cons y ys ih =>
    intro out hs h
    rw [List.pairwise_cons] at hs
    obtain ⟨hy, hs'⟩ := hs
    simp only [insertCand] at h
    cases hc : candLt x y with
    | error e => rw [hc] at h; cases h
    | ok b =>
      rw [hc] at h
      cases b with
      | true =>
        simp only [Except.ok.injEq] at h
        subst h
        have hxy : x.1 < y.1 := (candLt_ok_true_iff x y).mp hc
        rw [List.pairwise_cons]
        refine ⟨?_, List.pairwise_cons.mpr ⟨hy, hs'⟩⟩
        intro z hz
        rcases List.mem_cons.mp hz with rfl | hz'
        · exact le_of_lt hxy
        · exact le_trans (le_of_lt hxy) (hy z hz')
      | false =>
        cases hi : insertCand x ys with
        | error e => rw [hi] at h; cases h
        | ok t =>
          rw [hi] at h
          simp only [Except.ok.injEq] at h
          subst h
          have hyx : y.1 ≤ x.1 := candLt_ok_false_le x y hc
          rw [List.pairwise_cons]
          refine ⟨?_, ih t hs' hi⟩
          intro z hz
          have hz' : z ∈ x :: ys := (insertCand_ok_perm x ys t hi).mem_iff.mp hz
          rcases List.mem_cons.mp hz' with rfl | hz''
          · exact hyx
          · exact hy z hz''

/-- Any error escaping the sort fold is a `TypeError`. -/
theorem sortCandsGo_error_typeError :
    ∀ (l acc : List (Int × EvalResult)) e, sortCandsGo acc l = .error e →
      e = .typeError := by
  intro l
  induction l with
  | nil => intro acc e h; cases h
  | cons x xs ih =>
    intro acc e h
    cases hi : insertCand x acc with
    | error e' =>
      simp only [sortCandsGo, hi, Except.error.injEq] at h
      exact h ▸ insertCand_error_typeError x acc e' hi
    | ok acc' =>
      simp only [sortCandsGo, hi] at h
      exact ih acc' e h

/-- The sort fold over a key-sorted accumulator fails exactly when some
still-unprocessed element conflicts with the accumulator or two
unprocessed elements conflict with each other (equal keys, unequal
results). -/
theorem sortCandsGo_err_iff :
    ∀ (l acc : List (Int × EvalResult)),
      acc.Pairwise (fun a b => a.1 ≤ b.1) →
      (sortCandsGo acc l = .error .typeError ↔
        ¬ ((∀ x ∈ l, ∀ y ∈ acc, ¬(x.1 = y.1 ∧ x.2 ≠ y.2)) ∧
           l.Pairwise (fun a b => ¬(a.1 = b.1 ∧ a.2 ≠ b.2)))) := by
  intro l
  induction l with
  | nil =>
    intro acc hs
    simp [sortCandsGo]
  | cons x xs ih =>
    intro acc hs
    cases hi : insertCand x acc with
    | error e' =>
      have he' : e' = .typeError := insertCand_error_typeError x acc e' hi
      subst he'
      simp only [sortCandsGo, hi]
      rcases (insertCand_err_iff x acc hs).mp hi with ⟨y, hy, hy1, hy2⟩
      constructor
      · intro _
        rintro ⟨hA, _⟩
        exact hA x (List.mem_cons_self x xs) y hy ⟨hy1, hy2⟩
      · intro _
        trivial
    | ok acc' =>
      have hsorted' := insertCand_ok_sorted x acc acc' hs hi
      have hperm := insertCand_ok_perm x acc acc' hi
      have hnoconf : ¬ ∃ y ∈ acc, x.1 = y.1 ∧ x.2 ≠ y.2 := by
        intro hex
        have hcontra := (insertCand_err_iff x acc hs).mpr hex
        rw [hi] at hcontra
        simp at hcontra
      simp only [sortCandsGo, hi]
      rw [ih acc' hsorted']
      constructor
      · intro h hAB
        apply h
        obtain ⟨hA, hB⟩ := hAB
        rw [List.pairwise_cons] at hB
        obtain ⟨hBx, hB'⟩ := hB
        refine ⟨?_, hB'⟩
        intro z hz yy hyy
        have hyy' : yy ∈ x :: acc := hperm.mem_iff.mp hyy
        rcases List.mem_cons.mp hyy' with rfl | hyy''
        · rintro ⟨e1, e2⟩
          exact (hBx z hz) ⟨e1.symm, fun q => e2 q.symm⟩
        · exact hA z (List.mem_cons_of_mem x hz) yy hyy''
      · intro h hAB'
        apply h
        obtain ⟨hA', hB'⟩ := hAB'
        constructor
        · intro z hz yy hyy
          rcases List.mem_cons.mp hz with rfl | hz'
          · rintro ⟨e1, e2⟩
            exact hnoconf ⟨yy, hyy, e1, e2⟩
          · exact hA' z hz' yy (hperm.mem_iff.mpr (List.mem_cons_of_mem x hyy))
        · rw [List.pairwise_cons]
          refine ⟨?_, hB'⟩
          intro b hb
          have hx' : x ∈ acc' := hperm.mem_iff.mpr (List.mem_cons_self x acc)
          have hflip := hA' b hb x hx'
          rintro ⟨e1, e2⟩
          exact hflip ⟨e1.symm, fun q => e2 q.symm⟩

/-- The negated-size keys collide exactly when the line counts collide, so
pairwise compatibility of the candidate tuples is pairwise compatibility of
the results. -/
theorem pairwise_candidates_iff (results : List EvalResult) :
    (results.map (fun res => ((-(patchLineCount res : Int)), res))).Pairwise
        (fun a b => ¬(a.1 = b.1 ∧ a.2 ≠ b.2)) ↔
    results.Pairwise (fun a b => patchLineCount a = patchLineCount b → a = b) := by
  rw [List.pairwise_map]
  constructor
  · refine List.Pairwise.imp ?_
    intro a b h hcnt
    by_contra hne
    exact h ⟨by rw [hcnt], hne⟩
  · refine List.Pairwise.imp ?_
    intro a b h
    rintro ⟨e1, e2⟩
    have hcnt : patchLineCount a = patchLineCount b := by exact_mod_cast neg_inj.mp e1
    exact e2 (h hcnt)

/-- C10: counterexample.  A list holding the same result twice has two
entries with equal patch line counts, yet `select_best_solution` returns
that result without raising: equal tuples compare without ever ordering the
two dictionaries, so no `TypeError` occurs. -/
theorem c10_counterexample_duplicates_ok :
    select_best_solution [resultDup, resultDup] = .ok (some resultDup) := rfl

/-- C10 (amended): `select_best_solution` raises `TypeError` precisely when
the input holds two results with equal patch line counts that are not equal
as mappings; duplicate equal mappings (and, in particular, pairwise-distinct
line counts) never raise. -/
theorem c10_amended_typeerror_iff (results : List EvalResult) :
    select_best_solution results = .error .typeError ↔
    ¬ results.Pairwise (fun a b => patchLineCount a = patchLineCount b → a = b) := by
  cases results with
  | nil => simp [select_best_solution]
  | cons r rs =>
    simp only [select_best_solution, List.map_cons]
    cases hs : sortCands ((((-(patchLineCount r : Int)), r)) ::
        rs.map fun res => ((-(patchLineCount res : Int)), res)) with
    | error e =>
      have he : e = .typeError := sortCandsGo_error_typeError _ [] e hs
      subst he
      simp only [hs]
      have hs' : sortCandsGo []
          ((((-(patchLineCount r : Int)), r)) ::
            rs.map fun res => ((-(patchLineCount res : Int)), res)) =
          .error .typeError := hs
      have hmain := (sortCandsGo_err_iff _ [] List.Pairwise.nil).mp hs'
      constructor
      · intro _
        intro hP
        apply hmain
        refine ⟨fun x _ y hy => absurd hy (List.not_mem_nil y), ?_⟩
        exact (pairwise_candidates_iff (r :: rs)).mpr hP
      · intro _
        trivial
    | ok s =>
      simp only [hs]
      constructor
      · intro h
        simp at h
      · intro hnp
        exfalso
        have hL := (sortCandsGo_err_iff _ [] List.Pairwise.nil).mpr
          (by
            rintro ⟨_, hB⟩
            exact hnp ((pairwise_candidates_iff (r :: rs)).mp hB))
        have hs2 : sortCandsGo []
            ((((-(patchLineCount r : Int)), r)) ::
              rs.map fun res => ((-(patchLineCount res : Int)), res)) =
            .ok s := hs
        simp only [List.map_cons] at hL
        rw [hL] at hs2
        cases hs2

/-- A list is a Boolean prefix of itself followed by anything. -/
theorem isPrefixOf_append_self :
    ∀ (kw rest : List Char), kw.isPrefixOf (kw ++ rest) = true := by
  intro kw rest
  induction kw with
  | nil => simp [List.isPrefixOf]
  | cons c cs ih => simp [List.isPrefixOf, ih]

/-- Dropping the length of the `takeWhile` block is `dropWhile`. -/
theorem drop_takeWhile_length {p : Char → Bool} :
    ∀ l : List Char, l.drop (l.takeWhile p).length = l.dropWhile p := by
  intro l
  induction l with
  | nil => rfl
  | cons c cs ih =>
    by_cases hc : p c
    · simp [List.takeWhile_cons, List.dropWhile_cons, hc, ih]
    · simp [List.takeWhile_cons, List.dropWhile_cons, hc]

/-- A non-empty `takeWhile` starts where the list starts. -/
theorem head_takeWhile_eq {q : Char → Bool} :
    ∀ (l : List Char) c, (l.takeWhile q).head? = some c → l.head? = some c := by
  intro l c h
  cases l with
  | nil => cases h
  | cons d ds =>
    by_cases hd : q d
    · rw [List.takeWhile_cons, if_pos hd] at h
      simpa using h
    · rw [List.takeWhile_cons, if_neg hd] at h
      cases h

/-- `dropWhile` is the identity when the head already fails the predicate. -/
theorem dropWhile_head_false_fix {p : Char → Bool} :
    ∀ l : List Char, (∀ c, l.head? = some c → p c = false) →
      l.dropWhile p = l := by
  intro l h
  cases l with
  | nil => rfl
  | cons c cs => simp [List.dropWhile_cons, h c rfl]

/-- Members of a `dropWhile` come from the original list. -/
theorem mem_dropWhile {p : Char → Bool} (l : List Char) (c : Char)
    (h : c ∈ l.dropWhile p) : c ∈ l :=
  (List.dropWhile_sublist p).mem h

/-- `dropTrailingSpace` splits the list into the kept part and an all-space
suffix. -/
theorem dropTrailingSpace_decomp (l : List Char) :
    ∃ suf, l = dropTrailingSpace l ++ suf ∧ ∀ c ∈ suf, pyIsSpace c = true := by
  refine ⟨(l.reverse.takeWhile pyIsSpace).reverse, ?_, ?_⟩
  · unfold dropTrailingSpace
    conv_lhs => rw [← l.reverse_reverse]
    rw [← List.reverse_append]
    congr 1
    exact (List.takeWhile_append_dropWhile pyIsSpace l.reverse).symm
  · intro c hc
    rw [List.mem_reverse] at hc
    exact (mem_takeWhile _ c hc).1

/-- The last kept character of `dropTrailingSpace` is not whitespace. -/
theorem dropTrailingSpace_getLast (l : List Char) (c : Char)
    (h : (dropTrailingSpace l).getLast? = some c) : pyIsSpace c = false := by
  unfold dropTrailingSpace at h
  rw [List.getLast?_reverse] at h
  exact head_dropWhile_false _ c h

/-- Members of `dropTrailingSpace` come from the original list. -/
theorem mem_dropTrailingSpace (l : List Char) (c : Char)
    (h : c ∈ dropTrailingSpace l) : c ∈ l := by
  unfold dropTrailingSpace at h
  rw [List.mem_reverse] at h
  have := mem_dropWhile _ c h
  rwa [List.mem_reverse] at this

/-- Members of `pyStrip` come from the original list. -/
theorem mem_pyStrip (l : List Char) (c : Char) (h : c ∈ pyStrip l) : c ∈ l := by
  unfold pyStrip at h
  exact mem_dropWhile _ c (mem_dropTrailingSpace _ c h)

/-- `dropTrailingSpace` is the identity when the last character is already
not whitespace. -/
theorem dropTrailingSpace_fix (l : List Char)
    (h : ∀ c, l.getLast? = some c → pyIsSpace c = false) :
    dropTrailingSpace l = l := by
  unfold dropTrailingSpace
  rw [dropWhile_head_false_fix]
  · exact l.reverse_reverse
  · intro c hc
    rw [← List.getLast?_reverse, List.reverse_reverse] at hc
    exact h c hc

/-- `str.strip()` is idempotent. -/
theorem pyStrip_idem (l : List Char) : pyStrip (pyStrip l) = pyStrip l := by
  unfold pyStrip
  have hdw : (dropTrailingSpace (l.dropWhile pyIsSpace)).dropWhile pyIsSpace =
      dropTrailingSpace (l.dropWhile pyIsSpace) := by
    apply dropWhile_head_false_fix
    intro c hc
    obtain ⟨suf, hsuf, _⟩ := dropTrailingSpace_decomp (l.dropWhile pyIsSpace)
    have hh : (l.dropWhile pyIsSpace).head? = some c := by
      rw [hsuf]
      cases hm : dropTrailingSpace (l.dropWhile pyIsSpace) with
      | nil => rw [hm] at hc; cases hc
      | cons d ds =>
        rw [hm] at hc
        simp only [List.head?_cons, Option.some.injEq] at hc
        subst hc
        simp
    exact head_dropWhile_false l c hh
  rw [hdw]
  apply dropTrailingSpace_fix
  intro c hc
  exact dropTrailingSpace_getLast _ c hc

/-- Stripping a decorator line keeps it a decorator line. -/
theorem decoratorMatch_strip (line : List Char) (h : decoratorMatch line = true) :
    decoratorMatch (pyStrip line) = true ∧ pyStrip (pyStrip line) = pyStrip line := by
  refine ⟨?_, pyStrip_idem line⟩
  cases line with
  | nil => simp [decoratorMatch] at h
  | cons a as =>
    cases as with
    | nil => simp [decoratorMatch] at h
    | cons c rest =>
      simp only [decoratorMatch, Bool.and_eq_true, decide_eq_true_eq] at h
      obtain ⟨ha, hc⟩ := h
      subst ha
      unfold pyStrip
      have h1 : ('@' :: c :: rest).dropWhile pyIsSpace = '@' :: c :: rest := by
        apply dropWhile_head_false_fix
        intro d hd
        simp only [List.head?_cons, Option.some.injEq] at hd
        subst hd
        decide
      rw [h1]
      obtain ⟨suf, hsuf, hsufsp⟩ := dropTrailingSpace_decomp ('@' :: c :: rest)
      cases hm : dropTrailingSpace ('@' :: c :: rest) with
      | nil =>
        rw [hm] at hsuf
        simp only [List.nil_append] at hsuf
        have hat : pyIsSpace '@' = true :=
          hsufsp '@' (by rw [← hsuf]; exact List.mem_cons_self _ _)
        exact absurd hat (by decide)
      | cons x xs =>
        cases xs with
        | nil =>
          rw [hm] at hsuf
          simp only [List.cons_append, List.nil_append] at hsuf
          injection hsuf with e1 e2
          have hcs : pyIsSpace c = true :=
            hsufsp c (by rw [← e2]; exact List.mem_cons_self _ _)
          rw [word_not_space c hc] at hcs
          cases hcs
        | cons y ys =>
          rw [hm] at hsuf
          simp only [List.cons_append] at hsuf
          injection hsuf with e1 e2
          injection e2 with e3 e4
          subst e1
          subst e3
          simp [decoratorMatch, hc]

/-- A line whose head is not `'@'` is not a decorator line. -/
theorem decoratorMatch_false_of_head (g : List Char) (c : Char)
    (hc : g.head? = some c) (h : ¬ c = '@') : decoratorMatch g = false := by
  cases g with
  | nil => cases hc
  | cons a as =>
    simp only [List.head?_cons, Option.some.injEq] at hc
    subst hc
    cases as with
    | nil => rfl
    | cons b bs => simp [decoratorMatch, h]

/-- Structure of a successful header match: the captured group splits into
keyword, whitespace block, word block, colon-free middle and the final
colon, with the maximality facts the regex guarantees. -/
theorem headerMatch_struct (kw line g : List Char)
    (h : headerMatch kw line = some g) :
    ∃ ws w mid,
      g = kw ++ ws ++ w ++ mid ++ [':'] ∧
      ws ≠ [] ∧ (∀ c ∈ ws, pyIsSpace c = true) ∧
      w ≠ [] ∧ (∀ c ∈ w, pyIsWord c = true) ∧
      (∀ c ∈ mid, c ≠ ':' ∧ c ≠ '\n') ∧
      (∀ c, mid.head? = some c → pyIsWord c = false) ∧
      (∀ c ∈ ws, c ∈ line) ∧ (∀ c ∈ w, c ∈ line) ∧ (∀ c ∈ mid, c ∈ line) := by
  by_cases hp : kw.isPrefixOf line = true
  · simp only [headerMatch, hp, if_true] at h
    by_cases h1 : ((line.drop kw.length).takeWhile pyIsSpace).isEmpty = true
    · rw [if_pos h1] at h
      cases h
    · rw [if_neg h1] at h
      by_cases h2 : (((line.drop kw.length).drop
          ((line.drop kw.length).takeWhile pyIsSpace).length).takeWhile pyIsWord).isEmpty = true
      · rw [if_pos h2] at h
        cases h
      · rw [if_neg h2] at h
        by_cases h3 : ((((line.drop kw.length).drop
              ((line.drop kw.length).takeWhile pyIsSpace).length).drop
                (((line.drop kw.length).drop
                  ((line.drop kw.length).takeWhile pyIsSpace).length).takeWhile pyIsWord).length).drop
                  ((((line.drop kw.length).drop
                    ((line.drop kw.length).takeWhile pyIsSpace).length).drop
                      (((line.drop kw.length).drop
                        ((line.drop kw.length).takeWhile pyIsSpace).length).takeWhile pyIsWord).length).takeWhile
                        (fun c => !(c = ':' || c = '\n'))).length).head? = some ':'
        · rw [if_pos h3] at h
          simp only [Option.some.injEq] at h
          refine ⟨(line.drop kw.length).takeWhile pyIsSpace,
            ((line.drop kw.length).drop
              ((line.drop kw.length).takeWhile pyIsSpace).length).takeWhile pyIsWord,
            (((line.drop kw.length).drop
              ((line.drop kw.length).takeWhile pyIsSpace).length).drop
                (((line.drop kw.length).drop
                  ((line.drop kw.length).takeWhile pyIsSpace).length).takeWhile pyIsWord).length).takeWhile
                  (fun c => !(c = ':' || c = '\n')),
            h.symm, ?_, ?_, ?_, ?_, ?_, ?_, ?_, ?_, ?_⟩
          · intro heq
            exact h1 (by rw [heq]; rfl)
          · intro c hc
            exact (mem_takeWhile _ c hc).1
          · intro heq
            exact h2 (by rw [heq]; rfl)
          · intro c hc
            exact (mem_takeWhile _ c hc).1
          · intro c hc
            have := (mem_takeWhile _ c hc).1
            simp only [Bool.not_eq_true', Bool.or_eq_false_iff, decide_eq_false_iff_not] at this
            exact this
          · intro c hc
            have hr3 := head_takeWhile_eq _ c hc
            rw [drop_takeWhile_length] at hr3
            exact head_dropWhile_false _ c hr3
          · intro c hc
            exact List.mem_of_mem_drop (mem_takeWhile _ c hc).2
          · intro c hc
            exact List.mem_of_mem_drop (List.mem_of_mem_drop (mem_takeWhile _ c hc).2)
          · intro c hc
            exact List.mem_of_mem_drop (List.mem_of_mem_drop
              (List.mem_of_mem_drop (mem_takeWhile _ c hc).2))
        · rw [if_neg h3] at h
          cases h
  · simp only [headerMatch] at h
    rw [if_neg hp] at h
    cases h

/-- Rebuilding a header line of the captured shape matches again, capturing
exactly itself. -/
theorem headerMatch_build (kw ws w mid : List Char)
    (hws : ws ≠ []) (hwsp : ∀ c ∈ ws, pyIsSpace c = true)
    (hw : w ≠ []) (hww : ∀ c ∈ w, pyIsWord c = true)
    (hmid : ∀ c ∈ mid, c ≠ ':' ∧ c ≠ '\n')
    (hmidh : ∀ c, mid.head? = some c → pyIsWord c = false) :
    headerMatch kw (kw ++ (ws ++ (w ++ (mid ++ [':'])))) =
      some (kw ++ (ws ++ (w ++ (mid ++ [':'])))) := by
  have hpre := isPrefixOf_append_self kw (ws ++ (w ++ (mid ++ [':'])))
  simp only [headerMatch, hpre, if_true]
  rw [List.drop_left]
  have htw : (ws ++ (w ++ (mid ++ [':']))).takeWhile pyIsSpace = ws := by
    rw [takeWhile_append_all ws _ hwsp, takeWhile_head_false]
    · simp
    · intro c hc
      cases w with
      | nil => exact absurd rfl hw
      | cons d ds =>
        simp only [List.cons_append, List.head?_cons, Option.some.injEq] at hc
        subst hc
        exact word_not_space _ (hww _ (List.mem_cons_self _ _))
  rw [htw]
  have hwse : ¬ (ws.isEmpty = true) := by
    cases ws with
    | nil => exact absurd rfl hws
    | cons _ _ => simp
  rw [if_neg hwse, List.drop_left]
  have htw2 : (w ++ (mid ++ [':'])).takeWhile pyIsWord = w := by
    rw [takeWhile_append_all w _ hww, takeWhile_head_false]
    · simp
    · intro c hc
      cases mid with
      | nil =>
        simp only [List.nil_append, List.head?_cons, Option.some.injEq] at hc
        subst hc
        decide
      | cons m0 ms =>
        simp only [List.cons_append, List.head?_cons, Option.some.injEq] at hc
        subst hc
        exact hmidh _ rfl
  rw [htw2]
  have hwe : ¬ (w.isEmpty = true) := by
    cases w with
    | nil => exact absurd rfl hw
    | cons _ _ => simp
  rw [if_neg hwe, List.drop_left]
  have htw3 : (mid ++ [':']).takeWhile (fun c => !(c = ':' || c = '\n')) = mid := by
    rw [takeWhile_append_all mid _ ?hmidq, takeWhile_head_false]
    · simp
    · intro c hc
      simp only [List.head?_cons, Option.some.injEq] at hc
      subst hc
      decide
    case hmidq =>
      intro c hc
      have := hmid c hc
      simp only [Bool.not_eq_true', Bool.or_eq_false_iff, decide_eq_false_iff_not]
      exact this
  rw [htw3, List.drop_left]
  simp [List.append_assoc]

/-- A successful header match is a fixpoint: re-matching the captured group
captures the group itself. -/
theorem headerMatch_fix (kw line g : List Char)
    (h : headerMatch kw line = some g) : headerMatch kw g = some g := by
  obtain ⟨ws, w, mid, hg, hws, hwsp, hw, hww, hmid, hmidh, _, _, _⟩ :=
    headerMatch_struct kw line g h
  have hassoc : kw ++ ws ++ w ++ mid ++ [':'] =
      kw ++ (ws ++ (w ++ (mid ++ [':']))) := by
    simp [List.append_assoc]
  rw [hg, hassoc]
  exact headerMatch_build kw ws w mid hws hwsp hw hww hmid hmidh

/-- A captured header group contains no newline when the keyword and the
matched line contain none. -/
theorem headerMatch_no_newline (kw line g : List Char)
    (hkw : '\n' ∉ kw) (hline : '\n' ∉ line)
    (h : headerMatch kw line = some g) : '\n' ∉ g := by
  obtain ⟨ws, w, mid, hg, _, _, _, _, _, _, hwsl, hwl, hmidl⟩ :=
    headerMatch_struct kw line g h
  rw [hg]
  intro hmem
  simp only [List.append_assoc, List.mem_append, List.mem_singleton] at hmem
  rcases hmem with h0 | h0 | h0 | h0 | h0
  · exact hkw h0
  · exact hline (hwsl _ h0)
  · exact hline (hwl _ h0)
  · exact hline (hmidl _ h0)
  · cases h0

/-- A captured header group starts with the head of the keyword. -/
theorem headerMatch_head (kw line g : List Char) (c : Char)
    (h : headerMatch kw line = some g) (hc : kw.head? = some c) :
    g.head? = some c := by
  obtain ⟨ws, w, mid, hg, _, _, _, _, _, _, _, _, _⟩ :=
    headerMatch_struct kw line g h
  cases kw with
  | nil => cases hc
  | cons k ks =>
    simp only [List.head?_cons, Option.some.injEq] at hc
    subst hc
    rw [hg]
    rfl

/-- A header match against a keyword whose first character differs from the
line's first character fails. -/
theorem headerMatch_ne_head (k0 : Char) (ks g : List Char) (c : Char)
    (hg : g.head? = some c) (hne : ¬ (k0 == c) = true) :
    headerMatch (k0 :: ks) g = none := by
  cases g with
  | nil =>
    simp only [headerMatch]
    rw [if_neg]
    simp [List.isPrefixOf]
  | cons a as =>
    simp only [List.head?_cons, Option.some.injEq] at hg
    subst hg
    simp only [headerMatch]
    rw [if_neg]
    simp [List.isPrefixOf, hne]

/-- An emitted outline line re-emits itself, and carries no newline when the
source line had none. -/
theorem outlineEmit_fix (line e : List Char) (h : outlineEmit line = some e) :
    outlineEmit e = some e ∧ ('\n' ∉ line → '\n' ∉ e) := by
  unfold outlineEmit at h
  by_cases hd : decoratorMatch line = true
  · rw [if_pos hd] at h
    simp only [Option.some.injEq] at h
    subst h
    obtain ⟨hd', hidem⟩ := decoratorMatch_strip line hd
    constructor
    · unfold outlineEmit
      rw [if_pos hd', hidem]
    · intro hline hmem
      exact hline (mem_pyStrip line '\n' hmem)
  · rw [if_neg hd] at h
    cases hc : classMatch line with
    | some g =>
      simp only [hc, Option.some.injEq] at h
      subst h
      constructor
      · have hhead : g.head? = some 'c' := headerMatch_head classKw line g 'c' hc rfl
        have hdg : decoratorMatch g = false :=
          decoratorMatch_false_of_head g 'c' hhead (by decide)
        have hfix : classMatch g = some g := headerMatch_fix classKw line g hc
        unfold outlineEmit
        rw [if_neg (by simp [hdg])]
        simp only [hfix]
      · intro hline
        exact headerMatch_no_newline classKw line g (by decide) hline hc
    | none =>
      simp only [hc] at h
      constructor
      · have hhead : e.head? = some 'd' := headerMatch_head defKw line e 'd' h rfl
        have hdg : decoratorMatch e = false :=
          decoratorMatch_false_of_head e 'd' hhead (by decide)
        have hcg : classMatch e = none := by
          unfold classMatch
          rw [show classKw = 'c' :: ('l' :: 'a' :: 's' :: 's' :: []) from rfl]
          exact headerMatch_ne_head 'c' _ e 'd' hhead (by decide)
        have hfix : funcMatch e = some e := headerMatch_fix defKw line e h
        unfold outlineEmit
        rw [if_neg (by simp [hdg])]
        simp only [hcg, hfix]
      · intro hline
        exact headerMatch_no_newline defKw line e (by decide) hline h

/-- A self-emitting line is a decorator, class header or function header. -/
theorem outlineEmit_self_pred (e : List Char) (h : outlineEmit e = some e) :
    (decoratorMatch e || (classMatch e).isSome || (funcMatch e).isSome) = true := by
  unfold outlineEmit at h
  by_cases hd : decoratorMatch e = true
  · simp [hd]
  · rw [if_neg hd] at h
    cases hc : classMatch e with
    | some g => simp [hc]
    | none =>
      simp only [hc] at h
      simp [h]

/-- The compression loop ignores its flags: it agrees with the flag-free
filter from any starting state. -/
theorem compressGo_eq_filter :
    ∀ (lines : List (List Char)) (st : Bool × Bool),
      compressGo st lines = compressFilter lines := by
  intro lines
  induction lines with
  | nil => intro st; rfl
  | cons line rest ih =>
    intro st
    simp only [compressGo, compressFilter, List.filterMap_cons]
    by_cases hd : decoratorMatch line = true
    · simp [compressStep, outlineEmit, hd, ih, compressFilter]
    · cases hc : classMatch line with
      | some g => simp [compressStep, outlineEmit, hd, hc, ih, compressFilter]
      | none =>
        cases hf : funcMatch line with
        | some g => simp [compressStep, outlineEmit, hd, hc, hf, ih, compressFilter]
        | none =>
          by_cases h1 : (st.1 && (pyStrip line).isEmpty) = true
          · simp [compressStep, outlineEmit, hd, hc, hf, h1, ih, compressFilter]
          · by_cases h2 : (st.2 && (pyStrip line).isEmpty) = true
            · simp [compressStep, outlineEmit, hd, hc, hf, h1, h2, ih, compressFilter]
            · simp [compressStep, outlineEmit, hd, hc, hf, h1, h2, ih, compressFilter]

/-- The flag-free filter fixes a list of self-emitting lines. -/
theorem compressFilter_fix (ls : List (List Char))
    (h : ∀ e ∈ ls, outlineEmit e = some e) : compressFilter ls = ls := by
  induction ls with
  | nil => rfl
  | cons e es ih =>
    have hes := ih (fun x hx => h x (List.mem_cons_of_mem e hx))
    simp only [compressFilter, List.filterMap_cons, h e (List.mem_cons_self e es)]
    simpa [compressFilter] using congrArg (List.cons e) hes

/-- The compressed text equals the flag-free extraction. -/
theorem compress_eq_filter (s : List Char) :
    compress s = joinNl (compressFilter (splitNl s)) := by
  unfold compress compressLines
  rw [compressGo_eq_filter]

/-- C5: confirmed.  The `in_class`/`in_function` flags of the compression
loop in `function_class_localization` never influence what is emitted: for
every input text the compressed output equals the flag-free filter that
keeps only stripped decorator lines and class/function header captures. -/
theorem c5_flags_inert (s : List Char) :
    compress s = joinNl (compressFilter (splitNl s)) :=
  compress_eq_filter s

/-- C7: confirmed.  Every line emitted by the outline extraction step of
`function_class_localization` is a decorator line, a class header match or
a function header match; no other line appears. -/
theorem c7_no_false_positives (s : List Char) :
    (compressLines (splitNl s)).all
      (fun e => decoratorMatch e || (classMatch e).isSome || (funcMatch e).isSome) =
      true := by
  unfold compressLines
  rw [compressGo_eq_filter]
  rw [List.all_eq_true]
  intro e he
  unfold compressFilter at he
  rcases List.mem_filterMap.mp he with ⟨line, _, hline⟩
  exact outlineEmit_self_pred e (outlineEmit_fix line e hline).1

/-- C6: confirmed.  The outline extraction of
`function_class_localization` is idempotent on its own output. -/
theorem c6_outline_idempotent (s : List Char) :
    compress (compress s) = compress s := by
  cases hnil : compressFilter (splitNl s) with
  | nil =>
    rw [compress_eq_filter s, hnil]
    show compress [] = []
    rfl
  | cons e es =>
    have hfix : ∀ l ∈ compressFilter (splitNl s), outlineEmit l = some l := by
      intro l hl
      unfold compressFilter at hl
      rcases List.mem_filterMap.mp hl with ⟨line, _, hline⟩
      exact (outlineEmit_fix line l hline).1
    have hfree : ∀ l ∈ compressFilter (splitNl s), '\n' ∉ l := by
      intro l hl
      unfold compressFilter at hl
      rcases List.mem_filterMap.mp hl with ⟨line, hmem, hline⟩
      exact (outlineEmit_fix line l hline).2 (splitNl_no_newline s line hmem)
    rw [compress_eq_filter s]
    rw [compress_eq_filter (joinNl (compressFilter (splitNl s)))]
    rw [splitNl_joinNl _ (by rw [hnil]; simp) hfree]
    rw [compressFilter_fix _ hfix]

/-- No match is possible in the empty string. -/
theorem matchAtB_nil (i : Nat) : matchAtB [] i = false := by
  unfold matchAtB pathAt
  rw [List.drop_nil]
  decide

/-- Unfolding of the regex scan on a cons cell. -/
theorem searchDiffGit_cons (c : Char) (rest : List Char) :
    searchDiffGit (c :: rest) =
      if matchAtB (c :: rest) 0 = true then some (pathAt (c :: rest) 0)
      else searchDiffGit rest := by
  simp only [searchDiffGit, matchAtB, pathAt, List.drop_zero]

/-- Shifting the match position across a cons cell. -/
theorem matchAtB_cons (c : Char) (rest : List Char) (i : Nat) :
    matchAtB (c :: rest) (i + 1) = matchAtB rest i := by
  simp [matchAtB, pathAt, List.drop_succ_cons]

/-- Shifting the captured path across a cons cell. -/
theorem pathAt_cons (c : Char) (rest : List Char) (i : Nat) :
    pathAt (c :: rest) (i + 1) = pathAt rest i := by
  simp [pathAt, List.drop_succ_cons]

/-- `re.search` semantics: the scan returns the capture of the leftmost
matching position, and fails exactly when no position matches. -/
theorem searchDiffGit_spec :
    ∀ (patch p : List Char),
      searchDiffGit patch = some p ↔
        ∃ i, matchAtB patch i = true ∧ (∀ j, j < i → matchAtB patch j = false) ∧
          p = pathAt patch i := by
  intro patch
  induction patch with
  | nil =>
    intro p
    constructor
    · intro h
      cases h
    · rintro ⟨i, hi, _, _⟩
      rw [matchAtB_nil i] at hi
      cases hi
  | cons c rest ih =>
    intro p
    rw [searchDiffGit_cons]
    by_cases h0 : matchAtB (c :: rest) 0 = true
    · rw [if_pos h0]
      constructor
      · intro h
        simp only [Option.some.injEq] at h
        exact ⟨0, h0, fun j hj => absurd hj (Nat.not_lt_zero j), h.symm⟩
      · rintro ⟨i, hi, hmin, hp⟩
        cases i with
        | zero => simp [hp]
        | succ i' =>
          have hz := hmin 0 (Nat.succ_pos i')
          rw [hz] at h0
          cases h0
    · rw [if_neg h0]
      rw [ih p]
      constructor
      · rintro ⟨i, hi, hmin, hp⟩
        refine ⟨i + 1, ?_, ?_, ?_⟩
        · rwa [matchAtB_cons]
        · intro j hj
          cases j with
          | zero =>
            revert h0
            cases matchAtB (c :: rest) 0 <;> simp
          | succ j' =>
            rw [matchAtB_cons]
            exact hmin j' (Nat.lt_of_succ_lt_succ hj)
        · rwa [pathAt_cons]
      · rintro ⟨i, hi, hmin, hp⟩
        cases i with
        | zero => exact absurd hi h0
        | succ i' =>
          refine ⟨i', ?_, ?_, ?_⟩
          · rwa [matchAtB_cons] at hi
          · intro j hj
            have hj1 := hmin (j + 1) (Nat.succ_lt_succ hj)
            rwa [matchAtB_cons] at hj1
          · rwa [pathAt_cons] at hp

/-- The first piece of `str.split(sep)` is the longest separator-free
prefix. -/
theorem splitSep_headD (sep : Char) :
    ∀ cs : List Char,
      (splitSep sep cs).headD [] = cs.takeWhile (fun c => !(c = sep)) := by
  intro cs
  induction cs with
  | nil => rfl
  | cons c rest ih =>
    by_cases hc : c = sep
    · subst hc
      simp [splitSep, List.takeWhile_cons]
    · simp only [splitSep, if_neg hc]
      cases hs : splitSep sep rest with
      | nil => exact absurd hs (splitSep_ne_nil sep rest)
      | cons l ls =>
        rw [hs] at ih
        simp only [List.headD_cons] at ih ⊢
        simp [List.takeWhile_cons, hc, ← ih]

/-- A match forces a non-empty patch. -/
theorem matchAtB_ne_nil (patch : List Char) (i : Nat)
    (h : matchAtB patch i = true) : patch ≠ [] := by
  intro hp
  subst hp
  rw [matchAtB_nil] at h
  cases h

/-- C3 (amended): `derive_repo_info` succeeds exactly when the patch text
contains, anywhere (not only at a line start), an occurrence of
`diff --git a/` followed by a non-whitespace character; on success it uses
the leftmost occurrence, returning owner and name both equal to the first
`'/'`-segment of the captured path and `file_path` equal to that path; every
failure raises `ValueError` and nothing else. -/
theorem c3_amended_derive_repo_info (mi : ModelInfo) :
    ((∃ info, derive_repo_info mi = .ok info) ↔
      (∃ patch, mi.model_patch = some patch ∧ ∃ i, matchAtB patch i = true)) ∧
    (∀ patch i, mi.model_patch = some patch → matchAtB patch i = true →
      (∀ j, j < i → matchAtB patch j = false) →
      derive_repo_info mi =
        .ok ⟨(pathAt patch i).takeWhile (fun c => !(c = '/')),
             (pathAt patch i).takeWhile (fun c => !(c = '/')),
             pathAt patch i⟩) ∧
    (∀ e, derive_repo_info mi = .error e → e = .valueError) := by
  obtain ⟨mp⟩ := mi
  cases mp with
  | none =>
    refine ⟨by simp [derive_repo_info], ?_, ?_⟩
    · intro patch i hp
      simp at hp
    · intro e he
      simp only [derive_repo_info] at he
      exact (Except.error.injEq _ _ ▸ he : PyErr.valueError = e).symm
  | some patch =>
    cases patch with
    | nil =>
      refine ⟨?_, ?_, ?_⟩
      · simp [derive_repo_info, matchAtB_nil]
      · intro p i hp hm
        simp only [Option.some.injEq] at hp
        subst hp
        rw [matchAtB_nil] at hm
        cases hm
      · intro e he
        simp only [derive_repo_info, List.isEmpty_nil, if_pos] at he
        exact (Except.error.injEq _ _ ▸ he : PyErr.valueError = e).symm
    | cons c0 rest0 =>
      refine ⟨?_, ?_, ?_⟩
      · constructor
        · rintro ⟨info, hinfo⟩
          cases hs : searchDiffGit (c0 :: rest0) with
          | none => simp [derive_repo_info, hs] at hinfo
          | some p =>
            rcases (searchDiffGit_spec _ p).mp hs with ⟨i, hi, _, _⟩
            exact ⟨c0 :: rest0, rfl, i, hi⟩
        · rintro ⟨p, hp, i, hi⟩
          simp only [Option.some.injEq] at hp
          subst hp
          have hex : ∃ k, matchAtB (c0 :: rest0) k = true := ⟨i, hi⟩
          have hfind := Nat.find_spec hex
          have hmin : ∀ j, j < Nat.find hex → matchAtB (c0 :: rest0) j = false := by
            intro j hj
            have hj' := Nat.find_min hex hj
            revert hj'
            cases matchAtB (c0 :: rest0) j <;> simp
          have hsearch : searchDiffGit (c0 :: rest0) =
              some (pathAt (c0 :: rest0) (Nat.find hex)) :=
            (searchDiffGit_spec _ _).mpr ⟨Nat.find hex, hfind, hmin, rfl⟩
          exact ⟨⟨(splitSep '/' (pathAt (c0 :: rest0) (Nat.find hex))).headD [],
            (splitSep '/' (pathAt (c0 :: rest0) (Nat.find hex))).headD [],
            pathAt (c0 :: rest0) (Nat.find hex)⟩,
            by simp only [derive_repo_info, hsearch, List.isEmpty_cons,
              Bool.false_eq_true, if_false]⟩
      · intro p i hp hi hmin
        simp only [Option.some.injEq] at hp
        subst hp
        have hsearch : searchDiffGit (c0 :: rest0) = some (pathAt (c0 :: rest0) i) :=
          (searchDiffGit_spec _ _).mpr ⟨i, hi, hmin, rfl⟩
        simp only [derive_repo_info, hsearch, List.isEmpty_cons,
          Bool.false_eq_true, if_false]
        rw [splitSep_headD]
      · intro e he
        cases hs : searchDiffGit (c0 :: rest0) with
        | none =>
          simp only [derive_repo_info, hs, List.isEmpty_cons,
            Bool.false_eq_true, if_false] at he
          exact (Except.error.injEq _ _ ▸ he : PyErr.valueError = e).symm
        | some p =>
          simp [derive_repo_info, hs] at he

/-- C3: counterexample.  The patch `"xdiff --git a/p/q"` contains no
`diff --git a/<path>` line (its only line does not start with the marker),
so the claim requires a `ValueError`; yet `derive_repo_info` returns a
result, because `re.search` also matches in the middle of a line. -/
theorem c3_counterexample_midline_match :
    hasDiffGitLine (("xdiff --git a/p/q").toList) = false ∧
    derive_repo_info ⟨some (("xdiff --git a/p/q").toList)⟩ =
      .ok ⟨("p").toList, ("p").toList, ("p/q").toList⟩ := by
  refine ⟨?_, ?_⟩ <;> rfl

/-- C3: witness.  On a well-formed one-header diff the amended
characterisation yields the expected owner/name/path triple. -/
theorem c3_amended_witness :
    derive_repo_info ⟨some (("diff --git a/foo/bar.py b/foo/bar.py").toList)⟩ =
      .ok ⟨("foo").toList, ("foo").toList, ("foo/bar.py").toList⟩ := by
  have h := (c3_amended_derive_repo_info
      ⟨some (("diff --git a/foo/bar.py b/foo/bar.py").toList)⟩).2.1
      (("diff --git a/foo/bar.py b/foo/bar.py").toList) 0 rfl (by decide)
      (fun j hj => absurd hj (Nat.not_lt_zero j))
  have e1 : (pathAt (("diff --git a/foo/bar.py b/foo/bar.py").toList) 0).takeWhile
      (fun c => !(c = '/')) = ("foo").toList := by decide
  have e2 : pathAt (("diff --git a/foo/bar.py b/foo/bar.py").toList) 0 =
      ("foo/bar.py").toList := by decide
  rw [e1, e2] at h
  exact h

/-- Decimal digits are never newlines. -/
theorem digitChar_ne_newline (k : Nat) (hk : k < 10) : digitChar k ≠ '\n' := by
  interval_cases k <;> decide

/-- The decimal renderer emits no newline beyond what the accumulator
holds. -/
theorem natReprGo_no_newline :
    ∀ (fuel n : Nat) (acc : List Char), (∀ c ∈ acc, c ≠ '\n') →
      ∀ c ∈ natReprGo fuel n acc, c ≠ '\n' := by
  intro fuel
  induction fuel with
  | zero => intro n acc hacc c hc; exact hacc c hc
  | succ fuel ih =>
    intro n acc hacc c hc
    simp only [natReprGo] at hc
    by_cases hn : n < 10
    · rw [if_pos hn] at hc
      rcases List.mem_cons.mp hc with rfl | hc'
      · exact digitChar_ne_newline n hn
      · exact hacc c hc'
    · rw [if_neg hn] at hc
      refine ih (n / 10) (digitChar (n % 10) :: acc) ?_ c hc
      intro d hd
      rcases List.mem_cons.mp hd with rfl | hd'
      · exact digitChar_ne_newline _ (Nat.mod_lt n (by norm_num))
      · exact hacc d hd'

/-- `str(n)` contains no newline. -/
theorem natRepr_no_newline (n : Nat) : ∀ c ∈ natRepr n, c ≠ '\n' :=
  natReprGo_no_newline (n + 1) n [] (by intro c hc; cases hc)

/-- An enumerated member belongs to the underlying list. -/
theorem mem_of_mem_enumFrom :
    ∀ (l : List (List Char)) (n i : Nat) (x : List Char),
      (i, x) ∈ l.enumFrom n → x ∈ l := by
  intro l
  induction l with
  | nil => intro n i x h; cases h
  | cons a as ih =>
    intro n i x h
    simp only [List.enumFrom] at h
    rcases List.mem_cons.mp h with heq | h'
    · injection heq with _ h2
      exact h2 ▸ List.mem_cons_self a as
    · exact List.mem_cons_of_mem a (ih (n + 1) i x h')

/-- C2 (amended): every newline of the input is absent from the
line-numbered excerpt (the numbered lines are concatenated with no
separator), and the round-trip — stripping the single inserted prefix —
holds exactly for newline-free inputs. -/
theorem c2_amended_no_newline_roundtrip (s : List Char) :
    '\n' ∉ get_code_with_lines s ∧
    ((∀ c ∈ s, c ≠ '\n') → get_code_with_lines s = '1' :: ':' :: ' ' :: s) := by
  constructor
  · intro hmem
    unfold get_code_with_lines at hmem
    rcases List.mem_flatten.mp hmem with ⟨piece, hpiece, hnl⟩
    rcases List.mem_map.mp hpiece with ⟨⟨i, line⟩, hline, rfl⟩
    simp only [List.mem_append, List.mem_cons] at hnl
    rcases hnl with h0 | h0 | h0 | h0
    · exact natRepr_no_newline (i + 1) '\n' h0 rfl
    · cases h0
    · cases h0
    · have hmemline : line ∈ splitNl s := mem_of_mem_enumFrom (splitNl s) 0 i line hline
      exact splitNl_no_newline s line hmemline h0
  · intro hfree
    unfold get_code_with_lines splitNl
    rw [splitSep_no_sep '\n' s (fun hmem => hfree '\n' hmem rfl)]
    show (List.map (fun p => natRepr (p.1 + 1) ++ ':' :: ' ' :: p.2) [s].enum).flatten =
      '1' :: ':' :: ' ' :: s
    simp [List.enum, List.enumFrom, natRepr, natReprGo, digitChar]

/-- C2: counterexample.  On the input `"a\nb"` the excerpt is `"1: a2: b"`:
the newline of the input is gone (so the stripped output cannot reconstruct
the input), and indeed the distinct input `"a2: b"` produces the very same
excerpt, so no stripping procedure can invert the builder. -/
theorem c2_counterexample_newline_lost :
    get_code_with_lines (("a\nb").toList) = ("1: a2: b").toList ∧
    get_code_with_lines (("a\nb").toList) = get_code_with_lines (("a2: b").toList) ∧
    ("a\nb").toList ≠ ("a2: b").toList ∧
    (get_code_with_lines (("a\nb").toList)).count '\n' ≠
      (("a\nb").toList).count '\n' := by
  refine ⟨rfl, rfl, by decide, by decide⟩

/-- C2: witness.  On the newline-free input `"abc"` the amended round-trip
applies and the excerpt is the prefixed line. -/
theorem c2_amended_witness :
    '\n' ∉ get_code_with_lines (("abc").toList) ∧
    get_code_with_lines (("abc").toList) = ("1: abc").toList := by
  refine ⟨(c2_amended_no_newline_roundtrip (("abc").toList)).1, ?_⟩
  have h := (c2_amended_no_newline_roundtrip (("abc").toList)).2 (by decide)
  rw [h]
  rfl

/-- `rfind` succeeds whenever the character occurs. -/
theorem rfindPeriod_mem : ∀ s : List Char, '.' ∈ s → rfindPeriod s ≠ none := by
  intro s
  induction s with
  | nil => intro h; cases h
  | cons c rest ih =>
    intro hmem
    simp only [rfindPeriod]
    cases hr : rfindPeriod rest with
    | some j => simp
    | none =>
      rcases List.mem_cons.mp hmem with rfl | h'
      · simp
      · exact absurd hr (ih h')

/-- The index returned by `rfind` points at the character. -/
theorem rfindPeriod_get :
    ∀ (s : List Char) i, rfindPeriod s = some i → s.get? i = some '.' := by
  intro s
  induction s with
  | nil => intro i h; cases h
  | cons c rest ih =>
    intro i h
    simp only [rfindPeriod] at h
    cases hr : rfindPeriod rest with
    | some j =>
      rw [hr] at h
      simp only [Option.some.injEq] at h
      subst h
      exact ih j hr
    | none =>
      rw [hr] at h
      by_cases hc : c = '.'
      · rw [if_pos hc] at h
        simp only [Option.some.injEq] at h
        subst h
        simp [hc]
      · rw [if_neg hc] at h
        cases h

/-- Taking one element past `i` appends the element at `i`. -/
theorem take_succ_get :
    ∀ (l : List Char) (i : Nat) (c : Char), l.get? i = some c →
      l.take (i + 1) = l.take i ++ [c] := by
  intro l
  induction l with
  | nil => intro i c h; cases h
  | cons a as ih =>
    intro i c h
    cases i with
    | zero =>
      simp only [List.get?] at h
      simp only [Option.some.injEq] at h
      subst h
      rfl
    | succ j =>
      simp only [List.get?] at h
      have := ih j c h
      simp [List.take_succ_cons, this]

/-- The truncation step leaves a prompt with a small estimate untouched. -/
theorem truncate_prompt_small (prompt : List Char)
    (h : ¬ (prompt.length / 4 > 120000)) : truncate_prompt prompt = prompt := by
  simp only [truncate_prompt]
  rw [if_neg h]

/-- C4 (amended): whenever the estimated token count `len // 4` exceeds the
120000 ceiling (i.e. the truncation branch actually runs), the returned
prompt is at most the 480000-character budget, and it ends in a period
whenever one occurs before the truncation point. -/
theorem c4_amended_truncation (prompt : List Char)
    (h : prompt.length / 4 > 120000) :
    (truncate_prompt prompt).length ≤ 4 * 120000 ∧
    ('.' ∈ prompt.take (4 * 120000) →
      ∃ t, truncate_prompt prompt = t ++ ['.']) := by
  simp only [truncate_prompt]
  rw [if_pos h]
  cases hr : rfindPeriod (prompt.take (120000 * 4)) with
  | some i =>
    constructor
    · simp only [List.length_take]
      omega
    · intro _
      have hget := rfindPeriod_get _ i hr
      refine ⟨(prompt.take (120000 * 4)).take i, ?_⟩
      show (prompt.take (120000 * 4)).take (i + 1) =
        (prompt.take (120000 * 4)).take i ++ ['.']
      exact take_succ_get _ i '.' hget
  | none =>
    constructor
    · simp only [List.length_take]
      omega
    · intro hmem
      have : (120000 * 4) = 4 * 120000 := by norm_num
      rw [this] at hr
      exact absurd hr (rfindPeriod_mem _ (by rw [← this] at hmem ⊢; exact hmem))

/-- C4: counterexample.  A 480001-character prompt exceeds 4 × 120000, yet
the estimate `480001 // 4 = 120000` does not exceed the ceiling, so the
prompt is returned untruncated with length above the character budget. -/
theorem c4_counterexample_boundary :
    (List.replicate 480001 'a').length > 4 * 120000 ∧
    truncate_prompt (List.replicate 480001 'a') = List.replicate 480001 'a' := by
  constructor
  · rw [List.length_replicate]
    norm_num
  · apply truncate_prompt_small
    rw [List.length_replicate]
    norm_num

/-- C4: witness.  A 480004-period prompt triggers the truncation branch and
the amended bound applies. -/
theorem c4_amended_witness :
    (truncate_prompt (List.replicate 480004 '.')).length ≤ 4 * 120000 :=
  (c4_amended_truncation (List.replicate 480004 '.')
    (by rw [List.length_replicate]; norm_num)).1

/-- The accumulation loop of `calculate_success_rate` computes the two sums
over the scanned files. -/
theorem foldl_totals :
    ∀ (files : List ResultFileJson) (a b : Nat),
      files.foldl
        (fun acc data =>
          (acc.1 + data.total_instances.getD 0,
           acc.2 + (data.completed_ids.getD []).length)) (a, b) =
      (a + sumTotalInstances files, b + sumCompleted files) := by
  intro files
  induction files with
  | nil => intro a b; simp [sumTotalInstances, sumCompleted]
  | cons f fs ih =>
    intro a b
    simp only [List.foldl, ih, sumTotalInstances, sumCompleted,
      List.map_cons, List.sum_cons, Prod.mk.injEq]
    omega

/-- C8: confirmed.  `calculate_success_rate` returns
`(Σ completed) / (Σ total) × 100` over all scanned files, zero when the
summed total is zero; on files with totals {10, 5} and completed lists of
lengths {7, 5} the rate is 80. -/
theorem c8_success_rate :
    (∀ files : List ResultFileJson,
      calculate_success_rate files =
        if 0 < sumTotalInstances files then
          ((sumCompleted files : ℚ) / (sumTotalInstances files : ℚ)) * 100
        else 0) ∧
    calculate_success_rate
      [⟨some 10, some (List.replicate 7 [])⟩,
       ⟨some 5, some (List.replicate 5 [])⟩] = 80 := by
  have hgen : ∀ files : List ResultFileJson,
      calculate_success_rate files =
        if 0 < sumTotalInstances files then
          ((sumCompleted files : ℚ) / (sumTotalInstances files : ℚ)) * 100
        else 0 := by
    intro files
    unfold calculate_success_rate
    rw [foldl_totals files 0 0]
    simp
  refine ⟨hgen, ?_⟩
  rw [hgen]
  norm_num [sumTotalInstances, sumCompleted]

/-- C9: confirmed.  With the name `base_commit_sha` unbound in the enclosing
scope of `build_tree` — as in `file_level_localization`, whose parameter
list lacks it — every listing attempt raises `NameError` before reaching the
content host, the handler swallows it, and the rendered tree is the empty
string for every repository listing and every indent level; hence the
`Repository Structure:` section of every stage-1 prompt is empty. -/
theorem c9_tree_always_empty :
    (∀ (entries : List Entry) (indent : Nat),
      build_tree none entries indent = []) ∧
    (∀ entries : List Entry, file_level_codebase_tree entries = []) := by
  have h : ∀ (entries : List Entry) (indent : Nat),
      build_tree none entries indent = [] := by
    intro entries indent
    rw [build_tree]
    simp [lookupName]
  exact ⟨h, fun entries => h entries 0⟩
